import Mathlib

/-!
Shallow embedding of `src/server/src/infra/sql-generator/index.ts` (the
SQL-generator batch tool) and proofs about it.

The embedding models:
* the filename derivation in `SqlGenerator.write` (line 159),
* the discovery/invocation loop `SqlGenerator.runTargets` (lines 115-155),
* `SqlGenerator.process` (lines 93-113) including the `AccessRepository`
  nested-sub-object walk,
* the result mapping `this.results` (a JS object with string keys,
  insertion-ordered) and `SqlGenerator.write` / `SqlGenerator.stats`,
* the run orchestration `SqlGenerator.run` (try/finally) and the
  top-level `.then`/`.catch` exit-code logic (lines 181-191).

Repository method bodies, the ORM and the DI container are external
collaborators; a method's runtime behaviour is modelled as a function
from its argument list to the pair (SQL statements captured by the
logging shim during the call, optional error the returned promise
rejects with).
-/

namespace SqlGen

/-! ### Filename derivation (`SqlGenerator.write`, line 159)

`repoName.replaceAll(/[A-Z]/g, (letter) => `.${letter.toLowerCase()}`).replace('.', '')`
-/

/-- The character class `[A-Z]` of the regex: ASCII codepoints 65..90. -/
def isUpper (c : Char) : Bool := c.toNat ≥ 65 && c.toNat ≤ 90

/-- ASCII lowercase letters a..z (codepoints 97..122). -/
def isLowerLetter (c : Char) : Bool := c.toNat ≥ 97 && c.toNat ≤ 122

/-- `replaceAll(/[A-Z]/g, (letter) => '.' + letter.toLowerCase())`:
each uppercase letter is replaced by a dot followed by its lowercase form. -/
def replaceUppercase : List Char → List Char
  | [] => []
  | c :: cs => (if isUpper c then ['.', c.toLower] else [c]) ++ replaceUppercase cs

/-- JS `String.prototype.replace('.', '')`: remove the first occurrence of
`'.'` anywhere in the string (no-op when absent). -/
def removeFirstDot : List Char → List Char
  | [] => []
  | c :: cs => if c = '.' then cs else c :: removeFirstDot cs

/-- The code's filename derivation: replace every uppercase letter with a dot
plus its lowercase form, drop the first dot occurring anywhere, then append
the fixed `.sql` extension. -/
def filenameCode (name : String) : String :=
  String.mk (removeFirstDot (replaceUppercase name.data) ++ (".sql" : String).data)

/-- Modelled from the spec: "insert a separator before each uppercase
letter" — each uppercase letter is preceded by a dot, the letter kept as is. -/
def insertDots : List Char → List Char
  | [] => []
  | c :: cs => (if isUpper c then ['.', c] else [c]) ++ insertDots cs

/-- Modelled from the spec: "strip a leading separator" — remove a dot only
when it is the first character. -/
def stripLeadingDot : List Char → List Char
  | [] => []
  | c :: cs => if c = '.' then cs else c :: cs

/-- Modelled from the spec: "insert a separator before each uppercase letter,
lowercase the whole thing, strip a leading separator, and append a fixed
extension". -/
def filenameSpec (name : String) : String :=
  String.mk (stripLeadingDot ((insertDots name.data).map Char.toLower) ++ (".sql" : String).data)

/-! ### The discovery & invocation loop (`SqlGenerator.runTargets`, lines 115-155) -/

/-- One invocation case of the capture metadata (`GenerateSqlQueries`):
an optional human-readable name and a fixed positional argument list. -/
structure QueryCase where
  name : Option String
  params : List String
deriving DecidableEq

/-- One method of a repository instance, together with its runtime
behaviour. `isFunction` models the `target instanceof Function` check;
`metadata` is `reflector.get(GENERATE_SQL_KEY, target)` (`none` = no
annotation); `run params` returns the SQL statements the logging shim
captures during the call and the error the promise rejects with, if any. -/
structure Method where
  key : String
  isFunction : Bool
  metadata : Option (List QueryCase)
  run : List String → List String × Option String

/-- A console log event: `console.error` or `console.warn` with its text. -/
inductive LogEvent where
  | error : String → LogEvent
  | warn : String → LogEvent
deriving DecidableEq

/-- Output of a (part of a) `runTargets` loop: the blocks pushed onto
`data`, the console events, and the trace of method invocations
performed (method key, argument list), all in order. -/
structure RTOut where
  data : List String
  logs : List LogEvent
  invocations : List (String × List String)
deriving DecidableEq

def RTOut.append (a b : RTOut) : RTOut :=
  ⟨a.data ++ b.data, a.logs ++ b.logs, a.invocations ++ b.invocations⟩

def RTOut.nil : RTOut := ⟨[], [], []⟩

def RTOut.concat (xs : List RTOut) : RTOut := xs.foldr RTOut.append RTOut.nil

/-- JS `Array.prototype.join(sep)`. -/
def joinSep (sep : String) : List String → String
  | [] => ""
  | [a] => a
  | a :: b :: l => a ++ sep ++ joinSep sep (b :: l)

/-- The ` (name)` suffix appended to the query label when the case has a
name (`if (name) queryLabel += ` (${name})``). -/
def nameTag : Option String → String
  | none => ""
  | some n => " (" ++ n ++ ")"

/-- `` let queryLabel = `${label}.${key}` `` plus the optional name tag. -/
def caseLabel (label key : String) (n : Option String) : String :=
  label ++ "." ++ key ++ nameTag n

/-- One iteration of the `for (const { name, params } of queries)` loop
(lines 134-151): clear the shim, invoke the method, log a rejection as an
error, warn and emit no block when nothing was captured, otherwise emit
the block `['-- ' + queryLabel, ...queries].join('\n')`. -/
def runCase (label : String) (m : Method) (c : QueryCase) : RTOut :=
  let qLabel := caseLabel label m.key c.name
  let r := m.run c.params
  let errLogs : List LogEvent :=
    match r.2 with
    | some e => [.error (qLabel ++ " error: " ++ e)]
    | none => []
  if r.1.isEmpty then
    ⟨[], errLogs ++ [.warn ("No queries recorded for " ++ qLabel)], [(m.key, c.params)]⟩
  else
    ⟨[joinSep "\n" (("-- " ++ qLabel) :: r.1)], errLogs, [(m.key, c.params)]⟩

/-- `if (queries.length === 0) { queries.push({ params: [] }) }`: an empty
case list becomes a single unnamed zero-argument case. -/
def effectiveCases (cs : List QueryCase) : List QueryCase :=
  if cs.isEmpty then [{ name := none, params := [] }] else cs

/-- The body of the outer `for (const key of this.getPropertyNames(instance))`
loop for one property: skip non-functions and unannotated methods, otherwise
run every effective case in order. -/
def methodOut (label : String) (m : Method) : RTOut :=
  if m.isFunction then
    match m.metadata with
    | none => RTOut.nil
    | some cs => RTOut.concat ((effectiveCases cs).map (runCase label m))
  else RTOut.nil

/-- `SqlGenerator.runTargets(instance, label)`: the instance is its ordered
list of own-prototype properties. -/
def runTargets (ms : List Method) (label : String) : RTOut :=
  RTOut.concat (ms.map (methodOut label))

/-! ### `SqlGenerator.process` (lines 93-113) -/

/-- A target repository instance: its class name, its prototype methods in
order, and its own enumerable properties (`Object.keys(instance)`) holding
nested sub-instances — only walked for `AccessRepository`. -/
structure Repo where
  name : String
  methods : List Method
  subObjects : List (String × List Method)

/-- The first element pushed onto `data` in `process` (line 98). -/
def provenance : String := "-- NOTE: This file is auto generated by ./sql-generator"

/-- The blocks `process` accumulates after the provenance line: the
repository's own targets, and — only when the class name is
`AccessRepository` — the targets of every nested sub-object under the
label `${Repository.name}.${key}`. -/
def blocksOf (r : Repo) : List String :=
  (runTargets r.methods r.name).data ++
    (if r.name = "AccessRepository" then
      (r.subObjects.map (fun p => (runTargets p.2 (r.name ++ "." ++ p.1)).data)).flatten
    else [])

/-- The value stored into `this.results[Repository.name]`. -/
def processData (r : Repo) : List String := provenance :: blocksOf r

/-! ### The result mapping, `write` and `stats` (lines 56, 157-168)

`this.results` is a JS object with string keys: assignment keeps the
position of an existing key and appends a new key at the end. -/

/-- `results[k] = v` on an insertion-ordered string-keyed object. -/
def upsert (res : List (String × List String)) (k : String) (v : List String) :
    List (String × List String) :=
  match res with
  | [] => [(k, v)]
  | (k', v') :: rest => if k' = k then (k, v) :: rest else (k', v') :: upsert rest k v

/-- The `for (const Repository of repositories) { await this.process(Repository) }`
loop of `run`: builds `this.results` in target-list order. -/
def buildResults (repos : List Repo) : List (String × List String) :=
  repos.foldl (fun acc r => upsert acc r.name (processData r)) []

/-- `data.join('\n\n') + '\n'`: the bytes written to one output file. -/
def fileContent (d : List String) : String := joinSep "\n\n" d ++ "\n"

/-- `SqlGenerator.write`: one `(filename, content)` pair per entry of
`this.results`, in order. -/
def writeFiles (res : List (String × List String)) : List (String × String) :=
  res.map (fun p => (filenameCode p.1, fileContent p.2))

/-- `Object.keys(this.results).length`, the first summary number. -/
def statsFiles (res : List (String × List String)) : Nat := res.length

/-- `Object.values(this.results).flat().length`, the second summary number. -/
def statsQueries (res : List (String × List String)) : Nat :=
  ((res.map Prod.snd).flatten).length

/-- The total number of captured statement blocks across all repositories
(a block = one header line plus the statements of one invocation case;
the provenance line is not a block). -/
def totalBlocks (repos : List Repo) : Nat :=
  (repos.map (fun r => (blocksOf r).length)).sum

/-- The names of the fixed target list (lines 31-48 of the source). -/
def fixedRepoNames : List String :=
  ["AccessRepository", "AlbumRepository", "ApiKeyRepository", "AssetRepository",
   "AuditRepository", "LibraryRepository", "MoveRepository", "PartnerRepository",
   "PersonRepository", "SharedLinkRepository", "SearchRepository",
   "SystemConfigRepository", "SystemMetadataRepository", "TagRepository",
   "UserTokenRepository", "UserRepository"]

/-! ### Run orchestration and exit code (`run`, lines 60-71, and the
top-level invocation, lines 181-191) -/

/-- The phases the control flow can execute, in the order `run` performs
them; `close` is the `finally` teardown. -/
inductive Phase where
  | setup | process | write | stats | close
deriving DecidableEq

/-- Which phase of the body of `run` throws, if any. `setupError` covers
`rm`/`mkdir`/context creation, `processError` a throw escaping the
process loop, `writeError` a file-write failure. -/
structure RunEnv where
  setupError : Option String
  processError : Option String
  writeError : Option String

/-- The outcome of the `try` body of `run`: the first phase error, or
success. -/
def bodyResult (env : RunEnv) : Except String Unit :=
  match env.setupError with
  | some e => .error e
  | none =>
    match env.processError with
    | some e => .error e
    | none =>
      match env.writeError with
      | some e => .error e
      | none => .ok ()

/-- The trace of phases executed and the process exit status: the `finally`
runs `close` on every path, and the top-level `.then`/`.catch` exits with
`0` on resolution and `1` on rejection. -/
def runProgram (env : RunEnv) : List Phase × Nat :=
  match env.setupError with
  | some _ => ([.setup, .close], 1)
  | none =>
    match env.processError with
    | some _ => ([.setup, .process, .close], 1)
    | none =>
      match env.writeError with
      | some _ => ([.setup, .process, .write, .close], 1)
      | none => ([.setup, .process, .write, .stats, .close], 0)

/-! ### Concrete instances used in closed statements -/

/-- The single-repository scenario of the end-to-end test: one method
`findAll` with empty capture metadata that issues `SELECT * FROM a`. -/
def repoA : Repo :=
  { name := "RepoA",
    methods := [{ key := "findAll", isFunction := true, metadata := some [],
                  run := fun _ => (["SELECT * FROM a"], none) }],
    subObjects := [] }

/-- A repository whose only annotated method captures nothing, so the
repository produces zero blocks. -/
def repoB : Repo :=
  { name := "RepoB",
    methods := [{ key := "findAll", isFunction := true, metadata := some [],
                  run := fun _ => ([], none) }],
    subObjects := [] }

/-- A method whose invocation rejects after one statement was captured. -/
def mThrow : Method :=
  { key := "getThing", isFunction := true,
    metadata := some [{ name := none, params := [] }],
    run := fun _ => (["SELECT 1"], some "boom") }

/-- A method with one named single-argument case that captures one
statement. -/
def mSub : Method :=
  { key := "get", isFunction := true,
    metadata := some [{ name := some "with id", params := ["id1"] }],
    run := fun _ => (["SELECT 2"], none) }

/-- A method with empty capture metadata issuing one statement. -/
def mEmpty : Method :=
  { key := "findAll", isFunction := true, metadata := some [],
    run := fun _ => (["SELECT * FROM a"], none) }

/-- A composite repository carrying one nested sub-object. -/
def repoComposite : Repo :=
  { name := "AccessRepository",
    methods := [],
    subObjects := [("activity", [mSub])] }

/-- A non-composite repository that nevertheless has own enumerable
properties; the walk must ignore them. -/
def repoPlain : Repo :=
  { name := "AlbumRepository",
    methods := [mSub],
    subObjects := [("activity", [mThrow])] }

/-! ## Lemmas about the filename derivation -/

lemma data_mk (l : List Char) : (String.mk l).data = l := rfl

lemma toLower_dot : Char.toLower '.' = '.' := by decide

lemma toLower_not_upper {c : Char} (h : isUpper c = false) : c.toLower = c := by
  simp only [isUpper, ge_iff_le, Bool.and_eq_false_iff, decide_eq_false_iff_not, not_le] at h
  have h2 : ¬(c.toNat ≥ 65 ∧ c.toNat ≤ 90) := by omega
  simp [Char.toLower, h2]

/-- The code lowercases only the letters it replaces, the spec lowercases
the whole expanded string; the two agree. -/
lemma replaceUppercase_eq_spec (l : List Char) :
    replaceUppercase l = (insertDots l).map Char.toLower := by
  induction l with
  | nil => rfl
  | cons c cs ih =>
    by_cases h : isUpper c = true
    · simp [replaceUppercase, insertDots, h, ih, toLower_dot]
    · have h2 : isUpper c = false := by
        cases hb : isUpper c
        · rfl
        · exact absurd hb h
      simp [replaceUppercase, insertDots, h2, ih, toLower_not_upper h2]

/-- For an identifier starting with an uppercase letter, the first dot of
the expanded string is the leading one, so removing the first dot anywhere
equals stripping the leading dot. -/
lemma filename_agree_upper (c : Char) (cs : List Char) (h : isUpper c = true) :
    filenameCode (String.mk (c :: cs)) = filenameSpec (String.mk (c :: cs)) := by
  unfold filenameCode filenameSpec
  rw [data_mk, data_mk, ← replaceUppercase_eq_spec]
  simp [replaceUppercase, h, removeFirstDot, stripLeadingDot]

lemma dot_mem_replaceUppercase {d : Char} {l : List Char} (hd : d ∈ l)
    (hu : isUpper d = true) : '.' ∈ replaceUppercase l := by
  induction l with
  | nil => cases hd
  | cons c cs ih =>
    rcases List.mem_cons.mp hd with rfl | hmem
    · simp [replaceUppercase, hu]
    · by_cases h : isUpper c = true <;> simp [replaceUppercase, h, ih hmem]

lemma removeFirstDot_length {l : List Char} (h : '.' ∈ l) :
    (removeFirstDot l).length + 1 = l.length := by
  induction l with
  | nil => cases h
  | cons c cs ih =>
    by_cases hc : c = '.'
    · subst hc; simp [removeFirstDot]
    · have h2 : '.' ∈ cs := by
        rcases List.mem_cons.mp h with h | h
        · exact absurd h.symm hc
        · exact h
      simp [removeFirstDot, hc, ih h2]

/-- For an identifier starting with a lowercase letter that contains an
uppercase letter later, the code removes an interior separator while the
spec keeps it, so the two filenames differ (they do not even have the
same length). -/
lemma filename_differ (c d : Char) (cs : List Char)
    (hc : isLowerLetter c = true) (hd : isUpper d = true) (hmem : d ∈ cs) :
    filenameCode (String.mk (c :: cs)) ≠ filenameSpec (String.mk (c :: cs)) := by
  intro heq
  have hcu : isUpper c = false := by
    simp only [isLowerLetter, ge_iff_le, Bool.and_eq_true, decide_eq_true_eq] at hc
    simp only [isUpper, ge_iff_le, Bool.and_eq_false_iff, decide_eq_false_iff_not, not_le]
    omega
  have hcd : ¬ c = '.' := by
    intro h
    subst h
    exact absurd hc (by decide)
  have hdot : '.' ∈ replaceUppercase cs := dot_mem_replaceUppercase hmem hd
  have hlen := removeFirstDot_length hdot
  have hdata := congrArg String.data heq
  unfold filenameCode filenameSpec at hdata
  rw [data_mk, data_mk, data_mk, ← replaceUppercase_eq_spec] at hdata
  simp only [replaceUppercase, hcu, if_neg, Bool.false_eq_true, ite_false,
    List.singleton_append, removeFirstDot, hcd, ite_false, stripLeadingDot] at hdata
  have hlens := congrArg List.length hdata
  simp only [List.length_append, List.length_cons] at hlens
  omega

/-! ## Theorems for the claims -/

/-- C2: the output filename is a deterministic function of the repository
identifier; for PascalCase identifiers (first character uppercase) it
equals the rule "insert a separator before each uppercase letter,
lowercase the whole string, strip the leading separator, append `.sql`",
and in particular `AssetRepository` maps to `asset.repository.sql` and
`AccessRepository` to `access.repository.sql`. -/
theorem filename_derivation_c2 (c : Char) (cs : List Char) (h : isUpper c = true) :
    filenameCode (String.mk (c :: cs)) = filenameSpec (String.mk (c :: cs))
    ∧ filenameCode "AssetRepository" = "asset.repository.sql"
    ∧ filenameCode "AccessRepository" = "access.repository.sql" :=
  ⟨filename_agree_upper c cs h, by decide, by decide⟩

theorem filename_derivation_c2_witness :
    filenameCode (String.mk ('A' :: ("ssetRepository" : String).data))
      = filenameSpec (String.mk ('A' :: ("ssetRepository" : String).data))
    ∧ filenameCode "AssetRepository" = "asset.repository.sql"
    ∧ filenameCode "AccessRepository" = "access.repository.sql" :=
  filename_derivation_c2 'A' ("ssetRepository" : String).data (by decide)

/-- C9: the code transformation (prefix each uppercase letter with a dot,
lowercase it, then remove the first dot occurring anywhere) agrees with
the spec rule (strip only a leading separator) on every identifier whose
first character is uppercase, and differs on every identifier that starts
with a lowercase letter and contains an interior uppercase letter, because
an interior separator is removed instead. -/
theorem filename_refinement_c9 (c d : Char) (cs : List Char) :
    (isUpper c = true →
      filenameCode (String.mk (c :: cs)) = filenameSpec (String.mk (c :: cs)))
    ∧ (isLowerLetter c = true → isUpper d = true → d ∈ cs →
      filenameCode (String.mk (c :: cs)) ≠ filenameSpec (String.mk (c :: cs))) :=
  ⟨filename_agree_upper c cs, filename_differ c d cs⟩

theorem filename_refinement_c9_witness :
    filenameCode (String.mk ('A' :: ("bc" : String).data))
      = filenameSpec (String.mk ('A' :: ("bc" : String).data))
    ∧ filenameCode (String.mk ('f' :: ("ooBar" : String).data))
      ≠ filenameSpec (String.mk ('f' :: ("ooBar" : String).data)) :=
  ⟨(filename_refinement_c9 'A' 'B' ("bc" : String).data).1 (by decide),
   (filename_refinement_c9 'f' 'B' ("ooBar" : String).data).2 (by decide) (by decide) (by decide)⟩

/-! ## Lemmas about the invocation loop -/

lemma concat_cons (x : RTOut) (xs : List RTOut) :
    RTOut.concat (x :: xs) = x.append (RTOut.concat xs) := rfl

lemma concat_data (xs : List RTOut) :
    (RTOut.concat xs).data = (xs.map RTOut.data).flatten := by
  induction xs with
  | nil => rfl
  | cons x xs ih => simp [concat_cons, RTOut.append, ih]

lemma concat_logs (xs : List RTOut) :
    (RTOut.concat xs).logs = (xs.map RTOut.logs).flatten := by
  induction xs with
  | nil => rfl
  | cons x xs ih => simp [concat_cons, RTOut.append, ih]

lemma concat_invocations (xs : List RTOut) :
    (RTOut.concat xs).invocations = (xs.map RTOut.invocations).flatten := by
  induction xs with
  | nil => rfl
  | cons x xs ih => simp [concat_cons, RTOut.append, ih]

lemma runCase_invocations (label : String) (m : Method) (c : QueryCase) :
    (runCase label m c).invocations = [(m.key, c.params)] := by
  rcases hr : m.run c.params with ⟨qs, err⟩
  by_cases hq : qs.isEmpty <;> cases err <;> simp [runCase, hr, hq]

lemma runCase_data_empty {label : String} {m : Method} {c : QueryCase}
    (hq : (m.run c.params).1 = []) : (runCase label m c).data = [] := by
  rcases hr : m.run c.params with ⟨qs, err⟩
  rw [hr] at hq
  subst hq
  cases err <;> simp [runCase, hr]

lemma runCase_data_eq {label : String} {m : Method} {c : QueryCase}
    (hq : (m.run c.params).1 ≠ []) :
    (runCase label m c).data
      = [joinSep "\n" (("-- " ++ caseLabel label m.key c.name) :: (m.run c.params).1)] := by
  rcases hr : m.run c.params with ⟨qs, err⟩
  rw [hr] at hq
  have hq2 : qs.isEmpty = false := by
    cases qs
    · exact absurd rfl hq
    · rfl
  cases err <;> simp [runCase, hr, hq2]

lemma runCase_error_mem {label : String} {m : Method} {c : QueryCase} {e : String}
    (he : (m.run c.params).2 = some e) :
    LogEvent.error (caseLabel label m.key c.name ++ " error: " ++ e)
      ∈ (runCase label m c).logs := by
  rcases hr : m.run c.params with ⟨qs, err⟩
  rw [hr] at he
  subst he
  by_cases hq : qs.isEmpty <;> simp [runCase, hr, hq]

lemma effectiveCases_of_mem {c : QueryCase} {cs : List QueryCase} (h : c ∈ cs) :
    effectiveCases cs = cs := by
  cases cs
  · cases h
  · rfl

lemma methodOut_some {m : Method} {cs : List QueryCase} (label : String)
    (hf : m.isFunction = true) (hm : m.metadata = some cs) :
    methodOut label m = RTOut.concat ((effectiveCases cs).map (runCase label m)) := by
  simp [methodOut, hf, hm]

lemma runTargets_cons (m : Method) (ms : List Method) (label : String) :
    runTargets (m :: ms) label = (methodOut label m).append (runTargets ms label) := rfl

lemma nil_append (a : RTOut) : RTOut.nil.append a = a := by
  simp [RTOut.append, RTOut.nil]

lemma append_assoc (a b c : RTOut) :
    (a.append b).append c = a.append (b.append c) := by
  simp [RTOut.append]

lemma concat_append (xs ys : List RTOut) :
    RTOut.concat (xs ++ ys) = (RTOut.concat xs).append (RTOut.concat ys) := by
  induction xs with
  | nil => simp [RTOut.concat, nil_append]
  | cons x xs ih => simp [concat_cons, ih, append_assoc]

lemma runTargets_append (a b : List Method) (label : String) :
    runTargets (a ++ b) label = (runTargets a label).append (runTargets b label) := by
  simp [runTargets, List.map_append, concat_append]

/-- Decomposition of the loop around one method: everything before and
after it is processed unchanged. -/
lemma runTargets_middle (pre post : List Method) (m : Method) (label : String) :
    runTargets (pre ++ m :: post) label
      = (runTargets pre label).append
          ((methodOut label m).append (runTargets post label)) := by
  rw [runTargets_append, runTargets_cons]

lemma mem_concat_logs {x : LogEvent} {r : RTOut} {xs : List RTOut}
    (hr : r ∈ xs) (hx : x ∈ r.logs) : x ∈ (RTOut.concat xs).logs := by
  rw [concat_logs]
  exact List.mem_flatten.mpr ⟨r.logs, List.mem_map_of_mem _ hr, hx⟩

lemma mem_concat_data {x : String} {r : RTOut} {xs : List RTOut}
    (hr : r ∈ xs) (hx : x ∈ r.data) : x ∈ (RTOut.concat xs).data := by
  rw [concat_data]
  exact List.mem_flatten.mpr ⟨r.data, List.mem_map_of_mem _ hr, hx⟩

/-- C4: when an invocation case rejects, the error is logged with the
query label, the loop continues (the output decomposes into the parts
before, at, and after the failing method), and the failing case emits a
block exactly when statements were captured before the failure point. -/
theorem invocation_error_c4
    (pre post : List Method) (m : Method) (label : String)
    (cs : List QueryCase) (c : QueryCase) (e : String)
    (hf : m.isFunction = true) (hm : m.metadata = some cs) (hc : c ∈ cs)
    (he : (m.run c.params).2 = some e) :
    LogEvent.error (caseLabel label m.key c.name ++ " error: " ++ e)
        ∈ (runTargets (pre ++ m :: post) label).logs
    ∧ (runTargets (pre ++ m :: post) label).data
        = (runTargets pre label).data ++ (methodOut label m).data
            ++ (runTargets post label).data
    ∧ ((runCase label m c).data ≠ [] ↔ (m.run c.params).1 ≠ [])
    ∧ ∀ b ∈ (runCase label m c).data, b ∈ (methodOut label m).data := by
  have hmem : runCase label m c ∈ (effectiveCases cs).map (runCase label m) := by
    rw [effectiveCases_of_mem hc]
    exact List.mem_map_of_mem _ hc
  have hcase_in_method : ∀ b ∈ (runCase label m c).data, b ∈ (methodOut label m).data := by
    intro b hb
    rw [methodOut_some label hf hm]
    exact mem_concat_data hmem hb
  refine ⟨?_, ?_, ?_, hcase_in_method⟩
  · have h1 : LogEvent.error (caseLabel label m.key c.name ++ " error: " ++ e)
        ∈ (methodOut label m).logs := by
      rw [methodOut_some label hf hm]
      exact mem_concat_logs hmem (runCase_error_mem he)
    rw [runTargets_middle]
    simp [RTOut.append, h1]
  · rw [runTargets_middle]
    simp [RTOut.append]
  · constructor
    · intro hne hq
      exact hne (runCase_data_empty hq)
    · intro hq
      rw [runCase_data_eq hq]
      simp

theorem invocation_error_c4_witness :
    LogEvent.error (caseLabel "RepoX" mThrow.key none ++ " error: " ++ "boom")
        ∈ (runTargets ([] ++ mThrow :: []) "RepoX").logs
    ∧ (runTargets ([] ++ mThrow :: []) "RepoX").data
        = (runTargets [] "RepoX").data ++ (methodOut "RepoX" mThrow).data
            ++ (runTargets [] "RepoX").data
    ∧ ((runCase "RepoX" mThrow { name := none, params := [] }).data ≠ []
        ↔ (mThrow.run []).1 ≠ [])
    ∧ ∀ b ∈ (runCase "RepoX" mThrow { name := none, params := [] }).data,
        b ∈ (methodOut "RepoX" mThrow).data :=
  invocation_error_c4 [] [] mThrow "RepoX" [{ name := none, params := [] }]
    { name := none, params := [] } "boom" (by decide) (by decide) (by decide) (by decide)

/-- C6: a method carrying capture metadata with an empty case list is
invoked exactly once, with an empty argument list. -/
theorem empty_metadata_c6 (pre post : List Method) (m : Method) (label : String)
    (hf : m.isFunction = true) (hm : m.metadata = some []) :
    (runTargets (pre ++ m :: post) label).invocations
      = (runTargets pre label).invocations ++ [(m.key, [])]
          ++ (runTargets post label).invocations := by
  have h1 : (methodOut label m).invocations = [(m.key, [])] := by
    rw [methodOut_some label hf hm]
    simp [effectiveCases, concat_invocations, runCase_invocations]
  rw [runTargets_middle]
  simp [RTOut.append, h1]

theorem empty_metadata_c6_witness :
    (runTargets ([] ++ mEmpty :: []) "RepoA").invocations
      = (runTargets [] "RepoA").invocations ++ [("findAll", [])]
          ++ (runTargets [] "RepoA").invocations :=
  empty_metadata_c6 [] [] mEmpty "RepoA" (by decide) (by decide)

/-- C7: blocks produced under a nested sub-object walk carry the
three-part `Repository.subObject.method` header, blocks from methods on
the repository itself the two-part `Repository.method` header, in both
cases with the optional case name appended in parentheses; the nested
walk happens exactly for the designated composite repository
(`AccessRepository`), all other repositories contribute only their own
methods. -/
theorem composite_labels_c7 (R k : String) (m : Method) (c : QueryCase) (r : Repo) :
    ((m.run c.params).1 ≠ [] →
      (runCase (R ++ "." ++ k) m c).data
        = [joinSep "\n"
            (("-- " ++ R ++ "." ++ k ++ "." ++ m.key ++ nameTag c.name) :: (m.run c.params).1)])
    ∧ ((m.run c.params).1 ≠ [] →
      (runCase R m c).data
        = [joinSep "\n"
            (("-- " ++ R ++ "." ++ m.key ++ nameTag c.name) :: (m.run c.params).1)])
    ∧ (r.name = "AccessRepository" →
      processData r = provenance :: ((runTargets r.methods r.name).data
        ++ ((r.subObjects.map
              (fun p => (runTargets p.2 (r.name ++ "." ++ p.1)).data)).flatten)))
    ∧ (r.name ≠ "AccessRepository" →
      processData r = provenance :: (runTargets r.methods r.name).data) := by
  refine ⟨?_, ?_, ?_, ?_⟩
  · intro hq
    rw [runCase_data_eq hq]
    simp [caseLabel, String.append_assoc]
  · intro hq
    rw [runCase_data_eq hq]
    simp [caseLabel, String.append_assoc]
  · intro h
    simp [processData, blocksOf, h]
  · intro h
    simp [processData, blocksOf, h]

theorem composite_labels_c7_witness :
    (runCase ("AccessRepository" ++ "." ++ "activity") mSub
        { name := some "with id", params := ["id1"] }).data
      = [joinSep "\n"
          (("-- " ++ "AccessRepository" ++ "." ++ "activity" ++ "." ++ mSub.key
              ++ nameTag (some "with id")) :: (mSub.run ["id1"]).1)]
    ∧ (runCase "AlbumRepository" mSub
        { name := some "with id", params := ["id1"] }).data
      = [joinSep "\n"
          (("-- " ++ "AlbumRepository" ++ "." ++ mSub.key
              ++ nameTag (some "with id")) :: (mSub.run ["id1"]).1)]
    ∧ processData repoComposite
      = provenance :: ((runTargets repoComposite.methods repoComposite.name).data
          ++ ((repoComposite.subObjects.map
                (fun p => (runTargets p.2 (repoComposite.name ++ "." ++ p.1)).data)).flatten))
    ∧ processData repoPlain
      = provenance :: (runTargets repoPlain.methods repoPlain.name).data :=
  ⟨(composite_labels_c7 "AccessRepository" "activity" mSub
      { name := some "with id", params := ["id1"] } repoComposite).1 (by decide),
   (composite_labels_c7 "AlbumRepository" "activity" mSub
      { name := some "with id", params := ["id1"] } repoComposite).2.1 (by decide),
   (composite_labels_c7 "AccessRepository" "activity" mSub
      { name := some "with id", params := ["id1"] } repoComposite).2.2.1 (by decide),
   (composite_labels_c7 "AlbumRepository" "activity" mSub
      { name := some "with id", params := ["id1"] } repoPlain).2.2.2 (by decide)⟩

/-- C5: the teardown phase runs on every control path, and the exit
status is 0 exactly on normal completion and 1 exactly when some phase of
the run body throws. -/
theorem teardown_exit_c5 (env : RunEnv) :
    Phase.close ∈ (runProgram env).1
    ∧ ((runProgram env).2 = 0 ↔ bodyResult env = .ok ())
    ∧ ((runProgram env).2 = 1 ↔ ∃ e, bodyResult env = .error e) := by
  obtain ⟨s, p, w⟩ := env
  cases s <;> cases p <;> cases w <;> simp [runProgram, bodyResult]

/-! ## Lemmas about the result mapping -/

lemma upsert_not_mem (res : List (String × List String)) (k : String)
    (v : List String) (h : k ∉ res.map Prod.fst) :
    upsert res k v = res ++ [(k, v)] := by
  induction res with
  | nil => rfl
  | cons p rest ih =>
    obtain ⟨k', v'⟩ := p
    simp only [List.map_cons, List.mem_cons] at h
    push_neg at h
    have h1 : ¬(k' = k) := fun he => h.1 he.symm
    simp [upsert, h1, ih h.2]

lemma foldl_upsert (repos : List Repo) (acc : List (String × List String))
    (hnd : (repos.map Repo.name).Nodup)
    (hdisj : ∀ r ∈ repos, r.name ∉ acc.map Prod.fst) :
    repos.foldl (fun a r => upsert a r.name (processData r)) acc
      = acc ++ repos.map (fun r => (r.name, processData r)) := by
  induction repos generalizing acc with
  | nil => simp
  | cons r rest ih =>
    rw [List.foldl_cons, upsert_not_mem acc r.name (processData r)
      (hdisj r (List.mem_cons_self r rest))]
    rw [List.map_cons] at hnd
    rw [ih (acc ++ [(r.name, processData r)]) hnd.of_cons]
    · simp
    · intro r' hr'
      simp only [List.map_append, List.mem_append, List.map_cons, List.map_nil,
        List.mem_singleton, not_or]
      refine ⟨hdisj r' (List.mem_cons_of_mem r hr'), ?_⟩
      intro he
      exact (List.nodup_cons.mp hnd).1 (he ▸ List.mem_map_of_mem Repo.name hr')

/-- Under distinct repository names (true of the fixed target list), the
result mapping is exactly one entry per target repository, in order. -/
lemma buildResults_eq (repos : List Repo) (h : (repos.map Repo.name).Nodup) :
    buildResults repos = repos.map (fun r => (r.name, processData r)) := by
  simpa using foldl_upsert repos [] h (by simp)

/-- C10: after processing, the result mapping holds exactly one entry per
repository of the target list, in list order, and every entry is
non-empty with the provenance comment line as its first element, even for
repositories that produced zero blocks. -/
theorem results_invariant_c10 (repos : List Repo)
    (h : (repos.map Repo.name).Nodup) :
    buildResults repos = repos.map (fun r => (r.name, processData r))
    ∧ (buildResults repos).map Prod.fst = repos.map Repo.name
    ∧ ∀ p ∈ buildResults repos, p.2 ≠ [] ∧ p.2.head? = some provenance := by
  have heq := buildResults_eq repos h
  refine ⟨heq, ?_, ?_⟩
  · rw [heq]
    simp
  · intro p hp
    rw [heq] at hp
    obtain ⟨r, _, rfl⟩ := List.mem_map.mp hp
    simp [processData]

theorem results_invariant_c10_witness :
    buildResults [repoA, repoB]
      = [repoA, repoB].map (fun r => (r.name, processData r))
    ∧ (buildResults [repoA, repoB]).map Prod.fst = [repoA, repoB].map Repo.name
    ∧ ∀ p ∈ buildResults [repoA, repoB], p.2 ≠ [] ∧ p.2.head? = some provenance :=
  results_invariant_c10 [repoA, repoB] (by decide)

/-- C1 counterexample: `repoB` produces zero blocks, yet after the run a
file for it (named `repo.b.sql`, holding only the provenance line) is
present among the written files — refuting the claim that no file exists
for a zero-block repository. -/
theorem zero_block_file_c1_counterexample :
    blocksOf repoB = []
    ∧ (writeFiles (buildResults [repoB])).map Prod.fst = ["repo.b.sql"]
    ∧ writeFiles (buildResults [repoB]) = [("repo.b.sql", provenance ++ "\n")] := by
  refine ⟨by decide, by decide, by decide⟩

/-- C1 as amended: after a successful run the output directory holds
exactly one file per repository of the fixed target list, in list order
and named by the filename derivation — including repositories that
produced zero blocks. -/
theorem files_exactly_targets_c1 (repos : List Repo)
    (h : (repos.map Repo.name).Nodup) :
    (writeFiles (buildResults repos)).map Prod.fst
      = repos.map (fun r => filenameCode r.name) := by
  rw [buildResults_eq repos h]
  simp [writeFiles]

theorem files_exactly_targets_c1_witness :
    (writeFiles (buildResults [repoA, repoB])).map Prod.fst
      = [repoA, repoB].map (fun r => filenameCode r.name) :=
  files_exactly_targets_c1 [repoA, repoB] (by decide)

/-- C3 counterexample: in the single-repository scenario with exactly one
captured block, the summary reports 2 for its second number (the
flattened result entries include the provenance line), not the block
count 1 — refuting the claim that the summary reports the total number of
captured statement blocks. -/
theorem stats_c3_counterexample :
    statsQueries (buildResults [repoA]) = 2 ∧ totalBlocks [repoA] = 1 := by
  refine ⟨by decide, by decide⟩

lemma sum_processData_length (repos : List Repo) :
    (repos.map (fun r => (processData r).length)).sum
      = totalBlocks repos + repos.length := by
  induction repos with
  | nil => rfl
  | cons r rest ih =>
    have h1 : (processData r).length = (blocksOf r).length + 1 := by
      simp [processData]
    have h2 : totalBlocks (r :: rest) = (blocksOf r).length + totalBlocks rest := by
      simp [totalBlocks]
    rw [List.map_cons, List.sum_cons, h1, ih, h2, List.length_cons]
    omega

/-- C3 as amended: the first summary number is the number of files
written (one per target repository); the second is the total number of
captured statement blocks plus one provenance line per repository. -/
theorem stats_amended_c3 (repos : List Repo)
    (h : (repos.map Repo.name).Nodup) :
    statsFiles (buildResults repos) = repos.length
    ∧ statsQueries (buildResults repos) = totalBlocks repos + repos.length := by
  rw [statsFiles, statsQueries, buildResults_eq repos h]
  constructor
  · simp
  · rw [List.map_map]
    rw [List.length_flatten, List.map_map]
    exact sum_processData_length repos

theorem stats_amended_c3_witness :
    statsFiles (buildResults [repoA, repoB]) = ([repoA, repoB] : List Repo).length
    ∧ statsQueries (buildResults [repoA, repoB])
        = totalBlocks [repoA, repoB] + ([repoA, repoB] : List Repo).length :=
  stats_amended_c3 [repoA, repoB] (by decide)

/-- C8: each output file is the blocks of its repository joined with one
blank line between consecutive entries and a single trailing newline; in
the single-repository scenario the run writes exactly the file
`repo.a.sql` whose content is the provenance line, a blank line, the
`-- RepoA.findAll` header, and the literal statement, ended by one
newline. -/
theorem file_format_c8 :
    writeFiles (buildResults [repoA])
      = [("repo.a.sql",
          provenance ++ "\n\n-- RepoA.findAll\nSELECT * FROM a\n")]
    ∧ (∀ a : String, fileContent [a] = a ++ "\n")
    ∧ (∀ (a b : String) (l : List String),
        fileContent (a :: b :: l) = a ++ "\n\n" ++ fileContent (b :: l)) := by
  refine ⟨by decide, fun a => rfl, fun a b l => ?_⟩
  simp [fileContent, joinSep, String.append_assoc]

end SqlGen
